import Mathlib

/-!
Verification of the CEGAR refinement-tree implementation (refinementTree.hpp
and cegar.hpp).  The development shallowly embeds the data model and the
operations of the source: the three-valued validated logic, axis-aligned
boxes, the fixed-branch refinement tree, the leaf-reachability graph, the
`refine` operation, the DFS counterexample search, the representative-point
spuriousness check, the node comparator of the driver and the CEGAR driver
loop itself.  External numeric-kernel operations (dynamics evaluation,
validated containment, the reachability oracle over boxes) are parameters of
the corresponding definitions, mirroring the template parameters and the
external Ariadne calls of the source.
-/

namespace Cegar

/-! Three-valued validated logic, mirroring Ariadne's ValidatedKleenean with
its projections `definitely` and `possibly` and its negation. -/

/-- Three-valued verdict of a validated computation. -/
inductive Kleenean where
  | ktrue
  | kfalse
  | indeterminate
deriving DecidableEq, Repr

/-- Projection to Boolean that is true only on the definite-true verdict. -/
def definitely : Kleenean → Bool
  | .ktrue => true
  | _ => false

/-- Projection to Boolean that is false only on the definite-false verdict. -/
def possibly : Kleenean → Bool
  | .kfalse => false
  | _ => true

/-- Negation of a three-valued verdict; swaps the definite verdicts. -/
def kNot : Kleenean → Kleenean
  | .ktrue => .kfalse
  | .kfalse => .ktrue
  | .indeterminate => .indeterminate

/-- Lift of a Boolean into a definite three-valued verdict; used to model an
exact check of an effort-parameterised predicate. -/
def kOfBool (b : Bool) : Kleenean :=
  if b then .ktrue else .kfalse

/-! Boxes.  An axis-aligned box is a list of per-dimension closed intervals
with integer endpoints; this is an exact instance of the interval type `I`
the source is templated over.  The operations below model the Ariadne box
operations the source calls. -/

/-- Axis-aligned box: one (lower, upper) endpoint pair per dimension. -/
abbrev Box := List (Int × Int)

/-- Intersection of two boxes, dimension by dimension. -/
def boxIntersect (a b : Box) : Box :=
  List.zipWith (fun p q => (max p.1 q.1, min p.2 q.2)) a b

/-- Emptiness of a box: some dimension has upper endpoint below lower. -/
def boxIsEmpty (b : Box) : Bool :=
  b.any (fun p => decide (p.2 < p.1))

/-- Overlap of two boxes in the sense of Ariadne's `overlaps`: the interiors
intersect, i.e. every dimension of the intersection is nondegenerate. -/
def boxOverlaps (a b : Box) : Bool :=
  (boxIntersect a b).all (fun p => decide (p.1 < p.2))

/-- Containment of one box inside another, dimension by dimension. -/
def boxSubset (a b : Box) : Bool :=
  (List.zip a b).all (fun pq => decide (pq.2.1 ≤ pq.1.1) && decide (pq.1.2 ≤ pq.2.2))

/-! Graph node values of the driver's refinement tree.  A graph vertex either
carries an interior tree value (a box with a stable identifier and a safety
flag) or is the implicit outside-sink that carries no value. -/

/-- Tree value carried by a concrete graph node: stable identifier, box and
stored safety flag. -/
structure InteriorTreeValue where
  id : Nat
  box : Box
  safe : Kleenean
deriving DecidableEq, Repr

/-- Modelled from the spec: value attached to a graph vertex in the
refinement tree the driver operates on.  A vertex is either an inside value
that references a tree node, or the implicit outside-sink, which represents
escape from the root box and carries no tree value. -/
inductive GraphValue where
  | inside (treeNode : Nat)
  | outside
deriving DecidableEq, Repr

/-- Modelled from the spec: `node_value(h)` of the refinement tree the driver
operates on returns no value exactly on the outside-sink and otherwise the
interior tree value (box and safety flag) of the referenced tree node;
`tvOf` maps a tree node to its stored value. -/
def nodeValueM (tvOf : Nat → InteriorTreeValue) : GraphValue → Option InteriorTreeValue
  | .inside t => some (tvOf t)
  | .outside => none

/-- NodeComparator of cegar.hpp: the strict comparator ordering the driver's
initial-image set.  Two absent node values compare with result true, exactly
one absent value gives false, and two present values compare by identifier. -/
def nodeComparatorLt (nodeValue : GraphValue → Option InteriorTreeValue)
    (n1 n2 : GraphValue) : Bool :=
  match nodeValue n1, nodeValue n2 with
  | none, none => true
  | none, some _ => false
  | some _, none => false
  | some v1, some v2 => decide (v1.id < v2.id)

/-- Sample assignment of interior tree values used to evaluate the comparator
at concrete nodes. -/
def tvSample : Nat → InteriorTreeValue :=
  fun n => ⟨n, [(0, 1)], Kleenean.ktrue⟩

/-! Claims C7 and C8. -/

/-- Claim C7: evaluation of the driver's initial-image comparator at the
outside-sink.  The code orders the sink strictly before itself (the
comparator returns true on the pair of sinks), so under the strict-weak-order
reading required by the ordered set the sink does not compare equal to
itself; and the sink neither precedes nor follows a concrete node (both
orientations return false), so it does not consistently precede or follow
concrete nodes.  Both facts contradict the claimed identifier-based order;
the last conjunct checks that two concrete nodes do compare by identifier. -/
theorem nodeComparator_sink_behavior :
    nodeComparatorLt (nodeValueM tvSample) GraphValue.outside GraphValue.outside = true ∧
    nodeComparatorLt (nodeValueM tvSample) GraphValue.outside (GraphValue.inside 0) = false ∧
    nodeComparatorLt (nodeValueM tvSample) (GraphValue.inside 0) GraphValue.outside = false ∧
    nodeComparatorLt (nodeValueM tvSample) (GraphValue.inside 0) (GraphValue.inside 1) = true ∧
    nodeComparatorLt (nodeValueM tvSample) (GraphValue.inside 1) (GraphValue.inside 0) = false := by
  decide

/-- Claim C8: `node_value` returns no value exactly on the outside-sink, and
on a concrete node it returns the stored interior tree value (the box and the
safety flag) of the referenced tree node. -/
theorem nodeValue_none_iff_sink (tvOf : Nat → InteriorTreeValue) :
    (∀ g, nodeValueM tvOf g = none ↔ g = GraphValue.outside) ∧
    (∀ t, nodeValueM tvOf (GraphValue.inside t) = some (tvOf t)) := by
  constructor
  · intro g
    cases g <;> simp [nodeValueM]
  · intro t
    rfl

/-! The refinement tree of refinementTree.hpp: a binary (N = 2) tree whose
nodes carry a box and a safety flag.  Tree-node handles are stable integer
identifiers; the bijection between current leaves and graph vertices is
realised by using the identifier of a leaf as its graph vertex. -/

/-- Value stored at a tree node: enclosure box and stored safety flag. -/
structure TreeValue where
  box : Box
  safe : Kleenean
deriving DecidableEq, Repr

/-- Modelled from the spec: the fixed-branch tree of linkedFixedBranchTree.hpp
with branching factor two.  Every node carries its stable identifier and its
tree value; an interior node has exactly two children. -/
inductive FBTree where
  | leaf (id : Nat) (tv : TreeValue)
  | node (id : Nat) (tv : TreeValue) (l r : FBTree)
deriving DecidableEq, Repr

/-- Identifier of the root of a tree. -/
def FBTree.rootId : FBTree → Nat
  | .leaf i _ => i
  | .node i _ _ _ => i

/-- Value stored at the root of a tree. -/
def FBTree.rootTv : FBTree → TreeValue
  | .leaf _ tv => tv
  | .node _ tv _ _ => tv

/-- Identifiers of all nodes of a tree, in preorder. -/
def treeIds : FBTree → List Nat
  | .leaf i _ => [i]
  | .node i _ l r => i :: (treeIds l ++ treeIds r)

/-- Identifiers of the leaves of a tree, left to right. -/
def leafIds : FBTree → List Nat
  | .leaf i _ => [i]
  | .node _ _ l r => leafIds l ++ leafIds r

/-- Subtree rooted at the node with the given identifier, when present. -/
def findNode : FBTree → Nat → Option FBTree
  | .leaf i tv, v => if i = v then some (.leaf i tv) else none
  | .node i tv l r, v =>
    if i = v then some (.node i tv l r)
    else
      match findNode l v with
      | some s => some s
      | none => findNode r v

/-- Box stored at the node with the given identifier. -/
def boxAt (t : FBTree) (v : Nat) : Box :=
  ((findNode t v).map (fun s => s.rootTv.box)).getD []

/-- Safety flag stored at the node with the given identifier. -/
def safeAt (t : FBTree) (v : Nat) : Kleenean :=
  ((findNode t v).map (fun s => s.rootTv.safe)).getD Kleenean.indeterminate

/-- Leaf identifiers of the subtree rooted at the node with the given
identifier; this models tracing a graph neighbour down to its current
descendant leaves. -/
def leavesOfId (t : FBTree) (v : Nat) : List Nat :=
  match findNode t v with
  | some s => leafIds s
  | none => []

/-- Largest identifier occurring in a tree. -/
def maxId : FBTree → Nat
  | .leaf i _ => i
  | .node i _ l r => max i (max (maxId l) (maxId r))

/-- First identifier not occurring in a tree; new children receive this
identifier and its successor. -/
def freshId (t : FBTree) : Nat :=
  maxId t + 1

/-- Modelled from the spec: `expand` of the fixed-branch tree replaces the
leaf with the given identifier by an interior node with two fresh leaf
children carrying the supplied values and the identifiers `f` and `f + 1`. -/
def expand (t : FBTree) (v : Nat) (tv1 tv2 : TreeValue) (f : Nat) : FBTree :=
  match t with
  | .leaf i tv =>
    if i = v then .node i tv (.leaf f tv1) (.leaf (f + 1) tv2) else .leaf i tv
  | .node i tv l r => .node i tv (expand l v tv1 tv2 f) (expand r v tv1 tv2 f)

/-- Number of nodes of a tree, the quantity compared against the driver's
node budget. -/
def treeSize : FBTree → Nat
  | .leaf _ _ => 1
  | .node _ _ l r => 1 + treeSize l + treeSize r

/-- imageRecursive of refinementTree.hpp: descend from a node, prune a
subtree as soon as its box definitely does not intersect the query box,
report the graph vertex of a surviving leaf and recurse into the children of
a surviving interior node. -/
def imageRecursive (qbox : Box) : FBTree → List Nat
  | .leaf i tv => if boxIsEmpty (boxIntersect qbox tv.box) then [] else [i]
  | .node _ tv l r =>
    if boxIsEmpty (boxIntersect qbox tv.box) then []
    else imageRecursive qbox l ++ imageRecursive qbox r

/-- image of refinementTree.hpp: imageRecursive started at the root. -/
def image (qbox : Box) (t : FBTree) : List Nat :=
  imageRecursive qbox t

theorem imageRecursive_sublist_leafIds (qbox : Box) (t : FBTree) :
    (imageRecursive qbox t).Sublist (leafIds t) := by
  induction t with
  | leaf i tv =>
    simp only [imageRecursive, leafIds]
    split
    · exact List.nil_sublist _
    · exact List.Sublist.refl _
  | node i tv l r ihl ihr =>
    simp only [imageRecursive, leafIds]
    split
    · exact List.nil_sublist _
    · exact List.Sublist.append ihl ihr

theorem leafIds_sublist_treeIds (t : FBTree) :
    (leafIds t).Sublist (treeIds t) := by
  induction t with
  | leaf i tv => exact List.Sublist.refl _
  | node i tv l r ihl ihr =>
    simp only [leafIds, treeIds]
    exact (List.Sublist.append ihl ihr).cons i

/-! Claim C10. -/

/-- Claim C10: when the tree's node identifiers are pairwise distinct (as
maintained by construction, where every node receives a fresh identifier),
`image` returns each current leaf's graph vertex at most once: the returned
vector contains no duplicate handles. -/
theorem image_nodup (qbox : Box) (t : FBTree) (h : (treeIds t).Nodup) :
    (image qbox t).Nodup :=
  ((h.sublist (leafIds_sublist_treeIds t)).sublist
    (imageRecursive_sublist_leafIds qbox t))

/-- Witness for claim C10 on a concrete two-leaf tree and query box. -/
theorem image_nodup_witness :
    (treeIds (FBTree.node 0 ⟨[(0, 4)], Kleenean.ktrue⟩
        (FBTree.leaf 1 ⟨[(0, 2)], Kleenean.ktrue⟩)
        (FBTree.leaf 2 ⟨[(2, 4)], Kleenean.kfalse⟩))).Nodup ∧
    (image [(1, 3)] (FBTree.node 0 ⟨[(0, 4)], Kleenean.ktrue⟩
        (FBTree.leaf 1 ⟨[(0, 2)], Kleenean.ktrue⟩)
        (FBTree.leaf 2 ⟨[(2, 4)], Kleenean.kfalse⟩))).Nodup :=
  ⟨by decide, image_nodup [(1, 3)] _ (by decide)⟩

/-! The leaf-reachability graph and the combined refinement-tree state.
Graph vertices are the identifiers of current tree leaves; edges are ordered
pairs of vertex identifiers. -/

/-- Modelled from the spec: idempotent edge insertion of the adjacency
digraph of adjacencyDiGraph.hpp. -/
def addEdge (es : List (Nat × Nat)) (e : Nat × Nat) : List (Nat × Nat) :=
  if e ∈ es then es else es ++ [e]

/-- preimage of refinementTree.hpp: sources of the in-edges of a vertex. -/
def preimage (es : List (Nat × Nat)) (v : Nat) : List Nat :=
  (es.filter (fun e => e.2 == v)).map Prod.fst

/-- postimage of refinementTree.hpp: targets of the out-edges of a vertex. -/
def postimage (es : List (Nat × Nat)) (v : Nat) : List Nat :=
  (es.filter (fun e => e.1 == v)).map Prod.snd

/-- overlapsK models `constraints.overlaps(box).check(effort)`, the safety
flag computation of refinementTree.hpp, for a constraint set that is itself a
box over exact integer intervals: the check is exact, so the verdict is the
Boolean overlap lifted to a definite Kleenean. -/
def overlapsK (constraints b : Box) : Kleenean :=
  kOfBool (boxOverlaps constraints b)

/-- State of a RefinementTree of refinementTree.hpp: the refinement tree, the
graph vertices and edges over current leaves, the constraint set (a box, see
`overlapsK`), the dynamics, the reachability oracle over boxes modelling
`possibly(isReachable)` (an external validated computation from the dynamics
image of the source box), and the stored effort. -/
structure RT where
  tree : FBTree
  verts : List Nat
  edges : List (Nat × Nat)
  constraintsBox : Box
  dynamics : List Int → List Int
  pReach : Box → Box → Bool
  effort : Nat

/-- Constructor of RefinementTree: a single root leaf whose safety flag is
the overlap check of the initial box, one graph vertex for it, and a
self-loop exactly when the root is possibly reachable from itself. -/
def mkRT (initial constraints : Box) (dynamics : List Int → List Int)
    (pReach : Box → Box → Bool) (effort : Nat) : RT :=
  { tree := .leaf 0 ⟨initial, overlapsK constraints initial⟩
    verts := [0]
    edges := if pReach initial initial then [(0, 0)] else []
    constraintsBox := constraints
    dynamics := dynamics
    pReach := pReach
    effort := effort }

/-- refine of refinementTree.hpp: split the box of leaf `v` with the
strategy, compute the children's safety flags by the overlap check, expand
the tree, add a graph vertex per child, snapshot the pre- and post-image of
`v` and append `v` itself to both, then for every new child and every
descendant leaf of a snapshot member add the corresponding edge exactly when
the reachability oracle allows it, and finally remove the vertex of `v`
together with all its incident edges. -/
def refine (rt : RT) (v : Nat) (strat : Box → Box × Box) : RT :=
  let obox := boxAt rt.tree v
  let refined := strat obox
  let tv1 : TreeValue := ⟨refined.1, overlapsK rt.constraintsBox refined.1⟩
  let tv2 : TreeValue := ⟨refined.2, overlapsK rt.constraintsBox refined.2⟩
  let f := freshId rt.tree
  let tree2 := expand rt.tree v tv1 tv2 f
  let newNodes := [f, f + 1]
  let verts2 := rt.verts ++ newNodes
  let pres := preimage rt.edges v ++ [v]
  let posts := postimage rt.edges v ++ [v]
  let edges2 := newNodes.foldl (fun es c =>
    let esPre := pres.foldl (fun acc p =>
      (leavesOfId tree2 p).foldl (fun acc2 pl =>
        if rt.pReach (boxAt tree2 pl) (boxAt tree2 c) then addEdge acc2 (pl, c)
        else acc2) acc) es
    posts.foldl (fun acc p =>
      (leavesOfId tree2 p).foldl (fun acc2 sl =>
        if rt.pReach (boxAt tree2 c) (boxAt tree2 sl) then addEdge acc2 (c, sl)
        else acc2) acc) esPre) rt.edges
  { rt with
      tree := tree2
      verts := verts2.filter (fun x => x != v)
      edges := edges2.filter (fun e => (!(e.1 == v)) && (!(e.2 == v))) }

/-! Claim C9. -/

/-- Claim C9: refine mutates only the refinement tree and the leaf-mapping
graph; the constraint set, the dynamics, the reachability oracle derived from
them and the stored effort observable through the accessors are unchanged. -/
theorem refine_frame_effect (rt : RT) (v : Nat) (strat : Box → Box × Box) :
    (refine rt v strat).constraintsBox = rt.constraintsBox ∧
    (refine rt v strat).dynamics = rt.dynamics ∧
    (refine rt v strat).pReach = rt.pReach ∧
    (refine rt v strat).effort = rt.effort :=
  ⟨rfl, rfl, rfl, rfl⟩

/-! Claim C6.  The source computes every safety flag as an overlap check of
the node's own box against the constraint set.  Overlap is not inherited by
subsets, so a parent flagged safe can produce a child flagged unsafe; the
definitely-false overlap verdict, on the other hand, is inherited by every
child whose box lies inside the parent's box. -/

/-- Bisection strategy on one-dimensional boxes, used as a concrete
refinement strategy. -/
def stratHalf : Box → Box × Box
  | [(lo, hi)] => ([(lo, (lo + hi) / 2)], [((lo + hi) / 2, hi)])
  | b => (b, b)

/-- Concrete refinement-tree state: initial box [0, 4], constraint set
[0, 1], identity dynamics, all-true reachability oracle. -/
def rtCexC6 : RT :=
  mkRT [(0, 4)] [(0, 1)] (fun p => p) (fun _ _ => true) 1

/-- Concrete refinement-tree state: initial box [4, 8], constraint set
[0, 1]; the root's overlap check is definitely false. -/
def rtMonoC6 : RT :=
  mkRT [(4, 8)] [(0, 1)] (fun p => p) (fun _ _ => true) 1

/-- Claim C6 counterexample: refining the root of `rtCexC6`, whose stored
safety flag is True, produces the child with identifier 2 (a new leaf under
the refined node) whose stored safety flag is False: the claimed safety
monotonicity fails on the code, because each child's flag is recomputed as
the overlap check of the child's own box. -/
theorem refine_safety_not_monotone_cex :
    safeAt rtCexC6.tree 0 = Kleenean.ktrue ∧
    2 ∈ leavesOfId (refine rtCexC6 0 stratHalf).tree 0 ∧
    safeAt (refine rtCexC6 0 stratHalf).tree 2 = Kleenean.kfalse := by
  decide

theorem mem_treeIds_le_maxId (t : FBTree) (x : Nat) (hx : x ∈ treeIds t) :
    x ≤ maxId t := by
  induction t with
  | leaf i tv =>
    simp [treeIds] at hx
    simp [maxId, hx]
  | node i tv l r ihl ihr =>
    simp only [treeIds, List.mem_cons, List.mem_append] at hx
    rcases hx with h | h | h
    · simp [maxId, h]
    · exact le_trans (ihl h) (le_trans (le_max_left _ _) (le_max_right _ _))
    · exact le_trans (ihr h) (le_trans (le_max_right _ _) (le_max_right _ _))

theorem findNode_eq_none (t : FBTree) (x : Nat) (hx : ¬ x ∈ treeIds t) :
    findNode t x = none := by
  induction t with
  | leaf i tv =>
    simp [treeIds] at hx
    simp [findNode, Ne.symm hx]
  | node i tv l r ihl ihr =>
    simp only [treeIds, List.mem_cons, List.mem_append, not_or] at hx
    simp [findNode, Ne.symm hx.1, ihl hx.2.1, ihr hx.2.2]

theorem expand_eq_of_not_mem (t : FBTree) (v : Nat) (tv1 tv2 : TreeValue) (f : Nat)
    (hv : ¬ v ∈ treeIds t) : expand t v tv1 tv2 f = t := by
  induction t with
  | leaf i tv =>
    simp [treeIds] at hv
    simp [expand, Ne.symm hv]
  | node i tv l r ihl ihr =>
    simp only [treeIds, List.mem_cons, List.mem_append, not_or] at hv
    simp [expand, ihl hv.2.1, ihr hv.2.2]

theorem findNode_expand_new (t : FBTree) (v : Nat) (tv1 tv2 : TreeValue) (f : Nat)
    (hwf : (treeIds t).Nodup) (hv : v ∈ leafIds t)
    (hf : ∀ x ∈ treeIds t, x < f) :
    findNode (expand t v tv1 tv2 f) f = some (.leaf f tv1) ∧
    findNode (expand t v tv1 tv2 f) (f + 1) = some (.leaf (f + 1) tv2) := by
  induction t with
  | leaf i tv =>
    simp [leafIds] at hv
    have hif : i ≠ f := Nat.ne_of_lt (hf i (by simp [treeIds]))
    have hif1 : i ≠ f + 1 := by
      have := hf i (by simp [treeIds])
      omega
    subst hv
    simp [expand, findNode, hif, hif1]
  | node i tv l r ihl ihr =>
    have hil : i ≠ f := Nat.ne_of_lt (hf i (by simp [treeIds]))
    have hil1 : i ≠ f + 1 := by
      have := hf i (by simp [treeIds])
      omega
    have hnd : ((treeIds l) ++ (treeIds r)).Nodup := by
      simpa [treeIds] using hwf.of_cons
    have hndl : (treeIds l).Nodup := hnd.of_append_left
    have hndr : (treeIds r).Nodup := hnd.of_append_right
    have hdisj : ∀ x, x ∈ treeIds l → ¬ x ∈ treeIds r :=
      fun x hx => (List.disjoint_of_nodup_append hnd) hx
    have hfl : ∀ x ∈ treeIds l, x < f := fun x hx => hf x (by simp [treeIds, hx])
    have hfr : ∀ x ∈ treeIds r, x < f := fun x hx => hf x (by simp [treeIds, hx])
    have hfnl : ¬ (f : Nat) ∈ treeIds l := fun hc => absurd rfl (Nat.ne_of_lt (hfl f hc))
    have hfnl1 : ¬ (f + 1) ∈ treeIds l := fun hc => by
      have := hfl (f + 1) hc
      omega
    simp only [leafIds, List.mem_append] at hv
    rcases hv with hv | hv
    · have := ihl hndl hv hfl
      simp [expand, findNode, hil, hil1, this.1, this.2]
    · have hvl : ¬ v ∈ treeIds l :=
        fun hc => hdisj v hc ((leafIds_sublist_treeIds r).subset hv)
      have hl : expand l v tv1 tv2 f = l := expand_eq_of_not_mem l v tv1 tv2 f hvl
      have := ihr hndr hv hfr
      simp [expand, findNode, hil, hil1, hl, findNode_eq_none l f hfnl,
        findNode_eq_none l (f + 1) hfnl1, this.1, this.2]

theorem boxOverlaps_mono (c a b : Box) (hlen : a.length = b.length)
    (hsub : boxSubset a b = true) (h : boxOverlaps c a = true) :
    boxOverlaps c b = true := by
  induction c generalizing a b with
  | nil =>
    cases a <;> cases b <;> simp [boxOverlaps, boxIntersect] at *
  | cons cp cs ih =>
    cases a with
    | nil =>
      cases b with
      | nil => simp [boxOverlaps, boxIntersect]
      | cons bp bs => simp at hlen
    | cons ap as =>
      cases b with
      | nil => simp at hlen
      | cons bp bs =>
        simp only [boxSubset, List.zip_cons_cons, List.all_cons, Bool.and_eq_true,
          decide_eq_true_eq] at hsub
        simp only [boxOverlaps, boxIntersect, List.zipWith_cons_cons, List.all_cons,
          Bool.and_eq_true, decide_eq_true_eq] at h ⊢
        refine ⟨?_, ih as bs (by simpa using hlen) (by simpa [boxSubset] using hsub.2) h.2⟩
        have h1 := hsub.1.1
        have h2 := hsub.1.2
        have h3 := h.1
        simp only [lt_min_iff, max_lt_iff] at h3 ⊢
        omega

/-- Claim C6 amended: a definitely-false overlap verdict is inherited under
refinement.  If the overlap check of the parent leaf's box against the
constraint set is False (which is what a False stored flag records), and the
strategy's children are boxes of the same dimension contained in the parent's
box, then the safety flag stored at both new children is False. -/
theorem refine_child_safety_false_monotone (rt : RT) (v : Nat) (strat : Box → Box × Box)
    (hwf : (treeIds rt.tree).Nodup) (hleaf : v ∈ leafIds rt.tree)
    (hflag : overlapsK rt.constraintsBox (boxAt rt.tree v) = Kleenean.kfalse)
    (hlen1 : (strat (boxAt rt.tree v)).1.length = (boxAt rt.tree v).length)
    (hlen2 : (strat (boxAt rt.tree v)).2.length = (boxAt rt.tree v).length)
    (hsub1 : boxSubset (strat (boxAt rt.tree v)).1 (boxAt rt.tree v) = true)
    (hsub2 : boxSubset (strat (boxAt rt.tree v)).2 (boxAt rt.tree v) = true) :
    safeAt (refine rt v strat).tree (freshId rt.tree) = Kleenean.kfalse ∧
    safeAt (refine rt v strat).tree (freshId rt.tree + 1) = Kleenean.kfalse := by
  have hparent : boxOverlaps rt.constraintsBox (boxAt rt.tree v) = false := by
    by_contra hc
    have : boxOverlaps rt.constraintsBox (boxAt rt.tree v) = true := by
      revert hc
      cases boxOverlaps rt.constraintsBox (boxAt rt.tree v) <;> simp
    simp [overlapsK, kOfBool, this] at hflag
  have hchild1 : boxOverlaps rt.constraintsBox (strat (boxAt rt.tree v)).1 = false := by
    by_contra hc
    have hc1 : boxOverlaps rt.constraintsBox (strat (boxAt rt.tree v)).1 = true := by
      revert hc
      cases boxOverlaps rt.constraintsBox (strat (boxAt rt.tree v)).1 <;> simp
    have := boxOverlaps_mono rt.constraintsBox _ _ hlen1 hsub1 hc1
    simp [this] at hparent
  have hchild2 : boxOverlaps rt.constraintsBox (strat (boxAt rt.tree v)).2 = false := by
    by_contra hc
    have hc2 : boxOverlaps rt.constraintsBox (strat (boxAt rt.tree v)).2 = true := by
      revert hc
      cases boxOverlaps rt.constraintsBox (strat (boxAt rt.tree v)).2 <;> simp
    have := boxOverlaps_mono rt.constraintsBox _ _ hlen2 hsub2 hc2
    simp [this] at hparent
  have hf : ∀ x ∈ treeIds rt.tree, x < freshId rt.tree := by
    intro x hx
    have := mem_treeIds_le_maxId rt.tree x hx
    simp only [freshId]
    omega
  have hnew := findNode_expand_new rt.tree v
    ⟨(strat (boxAt rt.tree v)).1, overlapsK rt.constraintsBox (strat (boxAt rt.tree v)).1⟩
    ⟨(strat (boxAt rt.tree v)).2, overlapsK rt.constraintsBox (strat (boxAt rt.tree v)).2⟩
    (freshId rt.tree) hwf hleaf hf
  constructor
  · simp only [refine, safeAt]
    rw [hnew.1]
    simp [FBTree.rootTv, overlapsK, kOfBool, hchild1]
  · simp only [refine, safeAt]
    rw [hnew.2]
    simp [FBTree.rootTv, overlapsK, kOfBool, hchild2]

/-- Witness for the amended claim C6 on a concrete state whose root overlap
check is definitely false. -/
theorem refine_child_safety_false_monotone_witness :
    safeAt (refine rtMonoC6 0 stratHalf).tree 1 = Kleenean.kfalse ∧
    safeAt (refine rtMonoC6 0 stratHalf).tree 2 = Kleenean.kfalse :=
  refine_child_safety_false_monotone rtMonoC6 0 stratHalf (by decide) (by decide)
    (by decide) (by decide) (by decide) (by decide) (by decide)

/-! Claim C4: characterization of the graph surgery performed by refine. -/

theorem mem_addEdge (es : List (Nat × Nat)) (e x : Nat × Nat) :
    x ∈ addEdge es e ↔ x ∈ es ∨ x = e := by
  simp only [addEdge]
  split
  · rename_i he
    constructor
    · exact Or.inl
    · rintro (h | rfl)
      · exact h
      · exact he
  · simp

theorem mem_foldl_step {α : Type} (step : List (Nat × Nat) → α → List (Nat × Nat))
    (Q : α → (Nat × Nat) → Prop)
    (hstep : ∀ acc a x, x ∈ step acc a ↔ x ∈ acc ∨ Q a x)
    (l : List α) (es : List (Nat × Nat)) (x : Nat × Nat) :
    x ∈ l.foldl step es ↔ x ∈ es ∨ ∃ a ∈ l, Q a x := by
  induction l generalizing es with
  | nil => simp
  | cons a l ih =>
    rw [List.foldl_cons, ih, hstep]
    constructor
    · rintro ((h | h) | ⟨b, hb, hq⟩)
      · exact Or.inl h
      · exact Or.inr ⟨a, by simp, h⟩
      · exact Or.inr ⟨b, by simp [hb], hq⟩
    · rintro (h | ⟨b, hb, hq⟩)
      · exact Or.inl (Or.inl h)
      · rcases List.mem_cons.mp hb with rfl | hb
        · exact Or.inl (Or.inr hq)
        · exact Or.inr ⟨b, hb, hq⟩

theorem refineEdges_mem (tree2 : FBTree) (pReach : Box → Box → Bool)
    (newNodes pres posts : List Nat) (es0 : List (Nat × Nat)) (x : Nat × Nat) :
    x ∈ newNodes.foldl (fun es c =>
      let esPre := pres.foldl (fun acc p =>
        (leavesOfId tree2 p).foldl (fun acc2 pl =>
          if pReach (boxAt tree2 pl) (boxAt tree2 c) then addEdge acc2 (pl, c)
          else acc2) acc) es
      posts.foldl (fun acc p =>
        (leavesOfId tree2 p).foldl (fun acc2 sl =>
          if pReach (boxAt tree2 c) (boxAt tree2 sl) then addEdge acc2 (c, sl)
          else acc2) acc) esPre) es0 ↔
    x ∈ es0
    ∨ (∃ c ∈ newNodes, ∃ p ∈ pres, x.1 ∈ leavesOfId tree2 p ∧ x.2 = c ∧
        pReach (boxAt tree2 x.1) (boxAt tree2 c) = true)
    ∨ (∃ c ∈ newNodes, ∃ p ∈ posts, x.2 ∈ leavesOfId tree2 p ∧ x.1 = c ∧
        pReach (boxAt tree2 c) (boxAt tree2 x.2) = true) := by
  have hinner : ∀ (c : Nat) (L : List Nat) (acc : List (Nat × Nat)) (x : Nat × Nat),
      x ∈ L.foldl (fun acc2 pl =>
        if pReach (boxAt tree2 pl) (boxAt tree2 c) then addEdge acc2 (pl, c)
        else acc2) acc ↔
      x ∈ acc ∨ ∃ pl ∈ L, pReach (boxAt tree2 pl) (boxAt tree2 c) = true ∧ x = (pl, c) := by
    intro c L acc x
    refine mem_foldl_step _ (fun pl x => pReach (boxAt tree2 pl) (boxAt tree2 c) = true ∧ x = (pl, c)) ?_ L acc x
    intro acc2 pl y
    split
    · rename_i hr
      rw [mem_addEdge]
      simp [hr]
    · rename_i hr
      simp only [Bool.not_eq_true] at hr
      simp [hr]
  have hinner2 : ∀ (c : Nat) (L : List Nat) (acc : List (Nat × Nat)) (x : Nat × Nat),
      x ∈ L.foldl (fun acc2 sl =>
        if pReach (boxAt tree2 c) (boxAt tree2 sl) then addEdge acc2 (c, sl)
        else acc2) acc ↔
      x ∈ acc ∨ ∃ sl ∈ L, pReach (boxAt tree2 c) (boxAt tree2 sl) = true ∧ x = (c, sl) := by
    intro c L acc x
    refine mem_foldl_step _ (fun sl x => pReach (boxAt tree2 c) (boxAt tree2 sl) = true ∧ x = (c, sl)) ?_ L acc x
    intro acc2 sl y
    split
    · rename_i hr
      rw [mem_addEdge]
      simp [hr]
    · rename_i hr
      simp only [Bool.not_eq_true] at hr
      simp [hr]
  have hmidPre : ∀ (c : Nat) (acc : List (Nat × Nat)) (x : Nat × Nat),
      x ∈ pres.foldl (fun acc p =>
        (leavesOfId tree2 p).foldl (fun acc2 pl =>
          if pReach (boxAt tree2 pl) (boxAt tree2 c) then addEdge acc2 (pl, c)
          else acc2) acc) acc ↔
      x ∈ acc ∨ ∃ p ∈ pres, ∃ pl ∈ leavesOfId tree2 p,
        pReach (boxAt tree2 pl) (boxAt tree2 c) = true ∧ x = (pl, c) := by
    intro c acc x
    exact mem_foldl_step _ (fun p x => ∃ pl ∈ leavesOfId tree2 p,
        pReach (boxAt tree2 pl) (boxAt tree2 c) = true ∧ x = (pl, c))
      (fun acc p y => hinner c (leavesOfId tree2 p) acc y) pres acc x
  have hmidPost : ∀ (c : Nat) (acc : List (Nat × Nat)) (x : Nat × Nat),
      x ∈ posts.foldl (fun acc p =>
        (leavesOfId tree2 p).foldl (fun acc2 sl =>
          if pReach (boxAt tree2 c) (boxAt tree2 sl) then addEdge acc2 (c, sl)
          else acc2) acc) acc ↔
      x ∈ acc ∨ ∃ p ∈ posts, ∃ sl ∈ leavesOfId tree2 p,
        pReach (boxAt tree2 c) (boxAt tree2 sl) = true ∧ x = (c, sl) := by
    intro c acc x
    exact mem_foldl_step _ (fun p x => ∃ sl ∈ leavesOfId tree2 p,
        pReach (boxAt tree2 c) (boxAt tree2 sl) = true ∧ x = (c, sl))
      (fun acc p y => hinner2 c (leavesOfId tree2 p) acc y) posts acc x
  have houter := mem_foldl_step
    (fun es c =>
      let esPre := pres.foldl (fun acc p =>
        (leavesOfId tree2 p).foldl (fun acc2 pl =>
          if pReach (boxAt tree2 pl) (boxAt tree2 c) then addEdge acc2 (pl, c)
          else acc2) acc) es
      posts.foldl (fun acc p =>
        (leavesOfId tree2 p).foldl (fun acc2 sl =>
          if pReach (boxAt tree2 c) (boxAt tree2 sl) then addEdge acc2 (c, sl)
          else acc2) acc) esPre)
    (fun c x =>
      (∃ p ∈ pres, ∃ pl ∈ leavesOfId tree2 p,
        pReach (boxAt tree2 pl) (boxAt tree2 c) = true ∧ x = (pl, c)) ∨
      (∃ p ∈ posts, ∃ sl ∈ leavesOfId tree2 p,
        pReach (boxAt tree2 c) (boxAt tree2 sl) = true ∧ x = (c, sl)))
    (by
      intro acc c y
      simp only []
      rw [hmidPost, hmidPre]
      exact or_assoc)
    newNodes es0 x
  rw [houter]
  constructor
  · rintro (h | ⟨c, hc, ⟨p, hp, pl, hpl, hr, rfl⟩ | ⟨p, hp, sl, hsl, hr, rfl⟩⟩)
    · exact Or.inl h
    · exact Or.inr (Or.inl ⟨c, hc, p, hp, hpl, rfl, hr⟩)
    · exact Or.inr (Or.inr ⟨c, hc, p, hp, hsl, rfl, hr⟩)
  · rintro (h | ⟨c, hc, p, hp, hpl, h2, hr⟩ | ⟨c, hc, p, hp, hsl, h1, hr⟩)
    · exact Or.inl h
    · refine Or.inr ⟨c, hc, Or.inl ⟨p, hp, x.1, hpl, ?_⟩⟩
      subst h2
      exact ⟨hr, rfl⟩
    · refine Or.inr ⟨c, hc, Or.inr ⟨p, hp, x.2, hsl, ?_⟩⟩
      subst h1
      exact ⟨hr, rfl⟩

theorem refine_tree_def (rt : RT) (v : Nat) (strat : Box → Box × Box) :
    (refine rt v strat).tree =
      expand rt.tree v
        ⟨(strat (boxAt rt.tree v)).1, overlapsK rt.constraintsBox (strat (boxAt rt.tree v)).1⟩
        ⟨(strat (boxAt rt.tree v)).2, overlapsK rt.constraintsBox (strat (boxAt rt.tree v)).2⟩
        (freshId rt.tree) := rfl

theorem refine_edges_def (rt : RT) (v : Nat) (strat : Box → Box × Box) :
    (refine rt v strat).edges =
      (([freshId rt.tree, freshId rt.tree + 1]).foldl (fun es c =>
        let esPre := (preimage rt.edges v ++ [v]).foldl (fun acc p =>
          (leavesOfId (refine rt v strat).tree p).foldl (fun acc2 pl =>
            if rt.pReach (boxAt (refine rt v strat).tree pl)
                (boxAt (refine rt v strat).tree c) then addEdge acc2 (pl, c)
            else acc2) acc) es
        (postimage rt.edges v ++ [v]).foldl (fun acc p =>
          (leavesOfId (refine rt v strat).tree p).foldl (fun acc2 sl =>
            if rt.pReach (boxAt (refine rt v strat).tree c)
                (boxAt (refine rt v strat).tree sl) then addEdge acc2 (c, sl)
            else acc2) acc) esPre) rt.edges).filter
        (fun e => (!(e.1 == v)) && (!(e.2 == v))) := rfl

theorem findNode_leafIds_subset (t : FBTree) (p : Nat) (s : FBTree)
    (h : findNode t p = some s) : ∀ x ∈ leafIds s, x ∈ leafIds t := by
  induction t generalizing s with
  | leaf i tv =>
    simp only [findNode] at h
    split at h
    · cases h
      exact fun x hx => hx
    · cases h
  | node i tv l r ihl ihr =>
    simp only [findNode] at h
    split at h
    · cases h
      exact fun x hx => hx
    · intro x hx
      rcases hfl : findNode l p with _ | s2
      · rw [hfl] at h
        simp only [leafIds, List.mem_append]
        exact Or.inr (ihr s h x hx)
      · rw [hfl] at h
        cases h
        simp only [leafIds, List.mem_append]
        exact Or.inl (ihl s hfl x hx)

theorem mem_leavesOfId_mem_leafIds (t : FBTree) (p x : Nat)
    (h : x ∈ leavesOfId t p) : x ∈ leafIds t := by
  simp only [leavesOfId] at h
  rcases hf : findNode t p with _ | s
  · rw [hf] at h
    simp at h
  · rw [hf] at h
    exact findNode_leafIds_subset t p s hf x h

theorem not_mem_leafIds_expand (t : FBTree) (v : Nat) (tv1 tv2 : TreeValue) (f : Nat)
    (hwf : (treeIds t).Nodup) (hv : v ∈ leafIds t)
    (hf : ∀ x ∈ treeIds t, x < f) :
    ¬ v ∈ leafIds (expand t v tv1 tv2 f) := by
  induction t with
  | leaf i tv =>
    simp only [leafIds, List.mem_singleton] at hv
    subst hv
    have h1 : v < f := hf v (by simp [treeIds])
    simp only [expand, if_pos rfl, leafIds]
    intro hc
    simp only [List.mem_append, List.mem_singleton] at hc
    rcases hc with hc | hc <;> omega
  | node i tv l r ihl ihr =>
    have hnd : ((treeIds l) ++ (treeIds r)).Nodup := by
      simpa [treeIds] using hwf.of_cons
    have hdisj := List.disjoint_of_nodup_append hnd
    have hfl : ∀ x ∈ treeIds l, x < f := fun x hx => hf x (by simp [treeIds, hx])
    have hfr : ∀ x ∈ treeIds r, x < f := fun x hx => hf x (by simp [treeIds, hx])
    simp only [leafIds, List.mem_append] at hv
    simp only [expand, leafIds, List.mem_append]
    rcases hv with hv | hv
    · have hvr : ¬ v ∈ treeIds r := fun hc =>
        hdisj ((leafIds_sublist_treeIds l).subset hv) hc
      rw [expand_eq_of_not_mem r v tv1 tv2 f hvr]
      rintro (hc | hc)
      · exact ihl hnd.of_append_left hv hfl hc
      · exact hvr ((leafIds_sublist_treeIds r).subset hc)
    · have hvl : ¬ v ∈ treeIds l := fun hc =>
        hdisj hc ((leafIds_sublist_treeIds r).subset hv)
      rw [expand_eq_of_not_mem l v tv1 tv2 f hvl]
      rintro (hc | hc)
      · exact hvl ((leafIds_sublist_treeIds l).subset hc)
      · exact ihr hnd.of_append_right hv hfr hc

/-- Claim C4: refine snapshots the pre-image and post-image of the refined
leaf from the old graph and appends the leaf itself to both; afterwards the
graph vertices are the old vertices minus the refined leaf plus one vertex
per new child, and an edge is present iff it is an old edge not incident to
the refined leaf, or runs from a descendant leaf of a pre-image member to a
new child and the reachability oracle allows it, or runs from a new child to
a descendant leaf of a post-image member and the oracle allows it; no other
edges are added. -/
theorem refine_graph_update_characterization (rt : RT) (v : Nat)
    (strat : Box → Box × Box)
    (hwf : (treeIds rt.tree).Nodup) (hleaf : v ∈ leafIds rt.tree) :
    (∀ x : Nat, x ∈ (refine rt v strat).verts ↔
      ((x ∈ rt.verts ∧ x ≠ v) ∨ x = freshId rt.tree ∨ x = freshId rt.tree + 1)) ∧
    (∀ e : Nat × Nat, e ∈ (refine rt v strat).edges ↔
      (e ∈ rt.edges ∧ e.1 ≠ v ∧ e.2 ≠ v)
      ∨ (∃ c ∈ [freshId rt.tree, freshId rt.tree + 1],
          ∃ p ∈ preimage rt.edges v ++ [v],
            e.1 ∈ leavesOfId (refine rt v strat).tree p ∧ e.2 = c ∧
            rt.pReach (boxAt (refine rt v strat).tree e.1)
              (boxAt (refine rt v strat).tree c) = true)
      ∨ (∃ c ∈ [freshId rt.tree, freshId rt.tree + 1],
          ∃ p ∈ postimage rt.edges v ++ [v],
            e.2 ∈ leavesOfId (refine rt v strat).tree p ∧ e.1 = c ∧
            rt.pReach (boxAt (refine rt v strat).tree c)
              (boxAt (refine rt v strat).tree e.2) = true)) := by
  have hvm : v ∈ treeIds rt.tree := (leafIds_sublist_treeIds rt.tree).subset hleaf
  have hvf : v < freshId rt.tree := by
    have := mem_treeIds_le_maxId rt.tree v hvm
    simp only [freshId]
    omega
  have hfresh : ∀ x ∈ treeIds rt.tree, x < freshId rt.tree := by
    intro x hx
    have := mem_treeIds_le_maxId rt.tree x hx
    simp only [freshId]
    omega
  have hnol : ¬ v ∈ leafIds (refine rt v strat).tree := by
    simp only [refine]
    exact not_mem_leafIds_expand rt.tree v _ _ (freshId rt.tree) hwf hleaf hfresh
  constructor
  · intro x
    show x ∈ ((rt.verts ++ [freshId rt.tree, freshId rt.tree + 1]).filter
        (fun x => x != v)) ↔ _
    rw [List.mem_filter]
    simp only [List.mem_append, List.mem_cons, List.mem_singleton, bne_iff_ne,
      ne_eq, List.not_mem_nil, or_false]
    constructor
    · rintro ⟨h1 | h1 | h1, h2⟩
      · exact Or.inl ⟨h1, h2⟩
      · exact Or.inr (Or.inl h1)
      · exact Or.inr (Or.inr h1)
    · rintro (⟨h1, h2⟩ | h1 | h1)
      · exact ⟨Or.inl h1, h2⟩
      · constructor
        · exact Or.inr (Or.inl h1)
        · subst h1
          omega
      · constructor
        · exact Or.inr (Or.inr h1)
        · subst h1
          omega
  · intro e
    have hmem : e ∈ (refine rt v strat).edges ↔
        (e ∈ rt.edges
          ∨ (∃ c ∈ [freshId rt.tree, freshId rt.tree + 1],
              ∃ p ∈ preimage rt.edges v ++ [v],
                e.1 ∈ leavesOfId (refine rt v strat).tree p ∧ e.2 = c ∧
                rt.pReach (boxAt (refine rt v strat).tree e.1)
                  (boxAt (refine rt v strat).tree c) = true)
          ∨ (∃ c ∈ [freshId rt.tree, freshId rt.tree + 1],
              ∃ p ∈ postimage rt.edges v ++ [v],
                e.2 ∈ leavesOfId (refine rt v strat).tree p ∧ e.1 = c ∧
                rt.pReach (boxAt (refine rt v strat).tree c)
                  (boxAt (refine rt v strat).tree e.2) = true))
        ∧ e.1 ≠ v ∧ e.2 ≠ v := by
      rw [refine_edges_def, List.mem_filter]
      rw [refineEdges_mem ((refine rt v strat).tree) rt.pReach
        [freshId rt.tree, freshId rt.tree + 1]
        (preimage rt.edges v ++ [v]) (postimage rt.edges v ++ [v]) rt.edges e]
      simp only [Bool.and_eq_true, Bool.not_eq_eq_eq_not, Bool.not_true,
        beq_eq_false_iff_ne, ne_eq, Bool.not_eq_true', beq_eq_false_iff_ne]
    rw [hmem]
    have hnew1 : ∀ c ∈ [freshId rt.tree, freshId rt.tree + 1], c ≠ v := by
      intro c hc
      simp only [List.mem_cons, List.mem_singleton, List.not_mem_nil, or_false] at hc
      rcases hc with rfl | rfl <;> omega
    constructor
    · rintro ⟨h | h | h, h1, h2⟩
      · exact Or.inl ⟨h, h1, h2⟩
      · exact Or.inr (Or.inl h)
      · exact Or.inr (Or.inr h)
    · rintro (⟨h, h1, h2⟩ | h | h)
      · exact ⟨Or.inl h, h1, h2⟩
      · refine ⟨Or.inr (Or.inl h), ?_, ?_⟩
        · rcases h with ⟨c, hc, p, hp, hl, he2, hr⟩
          intro hc1
          rw [hc1] at hl
          exact hnol (mem_leavesOfId_mem_leafIds _ p v hl)
        · rcases h with ⟨c, hc, p, hp, hl, he2, hr⟩
          rw [he2]
          exact hnew1 c hc
      · refine ⟨Or.inr (Or.inr h), ?_, ?_⟩
        · rcases h with ⟨c, hc, p, hp, hl, he1, hr⟩
          rw [he1]
          exact hnew1 c hc
        · rcases h with ⟨c, hc, p, hp, hl, he1, hr⟩
          intro hc2
          rw [hc2] at hl
          exact hnol (mem_leavesOfId_mem_leafIds _ p v hl)

/-- Concrete refinement-tree state used to instantiate the refine
characterization: one root leaf with a self-loop. -/
def rtSample : RT :=
  mkRT [(0, 4)] [(0, 1)] (fun p => p) (fun _ _ => true) 1

/-- Witness for claim C4: the characterization instantiated on `rtSample`
refined at its root, evaluated at the vertex 2 and at the child-to-child
edge (1, 2). -/
theorem refine_graph_update_characterization_witness :
    ((2 : Nat) ∈ (refine rtSample 0 stratHalf).verts ↔
      ((2 ∈ rtSample.verts ∧ 2 ≠ 0) ∨ 2 = freshId rtSample.tree ∨
        2 = freshId rtSample.tree + 1)) ∧
    (((1, 2) : Nat × Nat) ∈ (refine rtSample 0 stratHalf).edges ↔
      ((1, 2) ∈ rtSample.edges ∧ (1 : Nat) ≠ 0 ∧ (2 : Nat) ≠ 0)
      ∨ (∃ c ∈ [freshId rtSample.tree, freshId rtSample.tree + 1],
          ∃ p ∈ preimage rtSample.edges 0 ++ [0],
            (1 : Nat) ∈ leavesOfId (refine rtSample 0 stratHalf).tree p ∧ (2 : Nat) = c ∧
            rtSample.pReach (boxAt (refine rtSample 0 stratHalf).tree 1)
              (boxAt (refine rtSample 0 stratHalf).tree c) = true)
      ∨ (∃ c ∈ [freshId rtSample.tree, freshId rtSample.tree + 1],
          ∃ p ∈ postimage rtSample.edges 0 ++ [0],
            (2 : Nat) ∈ leavesOfId (refine rtSample 0 stratHalf).tree p ∧ (1 : Nat) = c ∧
            rtSample.pReach (boxAt (refine rtSample 0 stratHalf).tree c)
              (boxAt (refine rtSample 0 stratHalf).tree 2) = true)) :=
  ⟨(refine_graph_update_characterization rtSample 0 stratHalf (by decide) (by decide)).1 2,
   (refine_graph_update_characterization rtSample 0 stratHalf (by decide) (by decide)).2 (1, 2)⟩

/-! The DFS counterexample search of cegar.hpp.  The graph accessors of the
refinement tree the search runs on are parameters: `post` is the postimage,
`safeK` the validated safety verdict of a node and `eqK` the validated
node-equality verdict (nodes_equal, the box comparison checked at the stored
effort); a node is pruned when it is definitely equal to a node on the
current path.  The search in the source recurses without a bound; the `fuel`
argument bounds the recursion depth of the embedding, and the entry point
below supplies fuel sufficient for any run over a finite node universe. -/

/-- findCounterexample of cegar.hpp, one frame: iterate over the candidate
nodes in order; skip a candidate definitely equal to a node on the current
path; otherwise push it and report the extended path if the candidate is not
definitely safe, else recurse into its postimage and report a non-empty
result; return the empty path when no candidate yields a counterexample. -/
def findCexF (post : Nat → List Nat) (safeK : Nat → Kleenean)
    (eqK : Nat → Nat → Kleenean) : Nat → List Nat → List Nat → List Nat
  | 0, _, _ => []
  | fuel + 1, cands, path =>
    cands.foldr
      (fun c acc =>
        if path.any (fun p => definitely (eqK c p)) then acc
        else
          let copyPath := path ++ [c]
          if !(definitely (safeK c)) then copyPath
          else
            let cex := findCexF post safeK eqK fuel (post c) copyPath
            if cex.isEmpty then acc else cex)
      []

/-- Entry point of the search: the initial call has the empty path, and the
fuel exceeds the number of graph nodes, which bounds the recursion depth of
any run whose node equality is reflexive. -/
def findCounterexample (post : Nat → List Nat) (safeK : Nat → Kleenean)
    (eqK : Nat → Nat → Kleenean) (univ image : List Nat) : List Nat :=
  findCexF post safeK eqK (univ.length + 1) image []

theorem findCexF_zero (post : Nat → List Nat) (safeK : Nat → Kleenean)
    (eqK : Nat → Nat → Kleenean) (cands path : List Nat) :
    findCexF post safeK eqK 0 cands path = [] := rfl

theorem findCexF_nil (post : Nat → List Nat) (safeK : Nat → Kleenean)
    (eqK : Nat → Nat → Kleenean) (fuel : Nat) (path : List Nat) :
    findCexF post safeK eqK (fuel + 1) [] path = [] := rfl

theorem findCexF_cons (post : Nat → List Nat) (safeK : Nat → Kleenean)
    (eqK : Nat → Nat → Kleenean) (fuel : Nat) (c : Nat) (rest path : List Nat) :
    findCexF post safeK eqK (fuel + 1) (c :: rest) path =
      (if path.any (fun p => definitely (eqK c p)) then
        findCexF post safeK eqK (fuel + 1) rest path
      else
        if !(definitely (safeK c)) then path ++ [c]
        else
          let cex := findCexF post safeK eqK fuel (post c) (path ++ [c])
          if cex.isEmpty then findCexF post safeK eqK (fuel + 1) rest path
          else cex) := by
  simp only [findCexF, List.foldr_cons]

theorem findCexF_sound (post : Nat → List Nat) (safeK : Nat → Kleenean)
    (eqK : Nat → Nat → Kleenean) :
    ∀ (fuel : Nat) (cands path q : List Nat),
    findCexF post safeK eqK fuel cands path = q → q ≠ [] →
    List.Chain' (fun a b => b ∈ post a) path →
    path.Pairwise (fun a b => definitely (eqK b a) = false) →
    (∀ c ∈ cands, ∀ lp, path.getLast? = some lp → c ∈ post lp) →
    ∃ r, q = path ++ r ∧ r ≠ [] ∧ (∃ c, r.head? = some c ∧ c ∈ cands) ∧
      List.Chain' (fun a b => b ∈ post a) q ∧
      q.Pairwise (fun a b => definitely (eqK b a) = false) ∧
      (∃ last, q.getLast? = some last ∧ definitely (safeK last) = false) := by
  intro fuel
  induction fuel with
  | zero =>
    intro cands path q hq hne _ _ _
    rw [findCexF_zero] at hq
    exact absurd hq.symm hne
  | succ fuel ih =>
    intro cands
    induction cands with
    | nil =>
      intro path q hq hne _ _ _
      rw [findCexF_nil] at hq
      exact absurd hq.symm hne
    | cons c rest ihc =>
      intro path q hq hne hch hpw hlink
      rw [findCexF_cons] at hq
      split at hq
      · rename_i hpr
        rcases ihc path q hq hne hch hpw
            (fun x hx => hlink x (List.mem_cons_of_mem c hx)) with
          ⟨r, h1, h2, ⟨c2, h3, h4⟩, h5⟩
        exact ⟨r, h1, h2, ⟨c2, h3, List.mem_cons_of_mem c h4⟩, h5⟩
      · rename_i hpr
        have hprf : ∀ p ∈ path, definitely (eqK c p) = false := by
          intro p hp
          by_contra hc2
          exact hpr (List.any_eq_true.mpr ⟨p, hp, by
            revert hc2
            cases definitely (eqK c p) <;> simp⟩)
        have hchc : List.Chain' (fun a b => b ∈ post a) (path ++ [c]) := by
          rw [List.chain'_append]
          refine ⟨hch, List.chain'_singleton c, ?_⟩
          intro x hx y hy
          simp only [List.head?_cons, Option.mem_def, Option.some.injEq] at hy
          subst hy
          exact hlink c (List.mem_cons_self c rest) x hx
        have hpwc : (path ++ [c]).Pairwise (fun a b => definitely (eqK b a) = false) := by
          rw [List.pairwise_append]
          refine ⟨hpw, List.pairwise_singleton _ c, ?_⟩
          intro a ha b hb
          simp only [List.mem_singleton] at hb
          subst hb
          exact hprf a ha
        split at hq
        · rename_i hsafe
          have hsf : definitely (safeK c) = false := by
            revert hsafe
            cases definitely (safeK c) <;> simp
          refine ⟨[c], hq.symm, by simp, ⟨c, rfl, List.mem_cons_self c rest⟩, ?_, ?_, ?_⟩
          · rw [← hq]
            exact hchc
          · rw [← hq]
            exact hpwc
          · exact ⟨c, by rw [← hq]; exact List.getLast?_concat path, hsf⟩
        · simp only [] at hq
          split at hq
          · rename_i hemp
            rcases ihc path q hq hne hch hpw
                (fun x hx => hlink x (List.mem_cons_of_mem c hx)) with
              ⟨r, h1, h2, ⟨c2, h3, h4⟩, h5⟩
            exact ⟨r, h1, h2, ⟨c2, h3, List.mem_cons_of_mem c h4⟩, h5⟩
          · rcases ih (post c) (path ++ [c]) q hq hne hchc hpwc (by
                intro x hx lp hlp
                rw [List.getLast?_concat path] at hlp
                cases hlp
                exact hx) with
              ⟨r2, h1, h2, ⟨c2, h3, h4⟩, h5, h6, h7⟩
            refine ⟨c :: r2, ?_, by simp, ⟨c, rfl, List.mem_cons_self c rest⟩, h5, h6, h7⟩
            rw [h1, List.append_assoc]
            rfl

/-! Claim C2. -/

/-- Claim C2: a non-empty path returned by findCounterexample starts at a
node of the supplied initial image, follows postimage edges between
consecutive nodes, ends at a node that is not definitely safe, and, when the
node-equality verdict is symmetric (it compares boxes), no two nodes on the
path compare definitely equal in either orientation. -/
theorem findCounterexample_path_valid (post : Nat → List Nat) (safeK : Nat → Kleenean)
    (eqK : Nat → Nat → Kleenean) (univ image q : List Nat)
    (hq : findCounterexample post safeK eqK univ image = q) (hne : q ≠ [])
    (hsymm : ∀ a b, eqK a b = eqK b a) :
    (∃ c, q.head? = some c ∧ c ∈ image) ∧
    List.Chain' (fun a b => b ∈ post a) q ∧
    (∃ last, q.getLast? = some last ∧ definitely (safeK last) = false) ∧
    q.Pairwise (fun a b =>
      definitely (eqK a b) = false ∧ definitely (eqK b a) = false) := by
  rcases findCexF_sound post safeK eqK (univ.length + 1) image [] q hq hne
      (List.chain'_nil) (List.Pairwise.nil) (by simp) with
    ⟨r, h1, h2, ⟨c, h3, h4⟩, h5, h6, h7⟩
  simp only [List.nil_append] at h1
  subst h1
  refine ⟨⟨c, h3, h4⟩, h5, h7, ?_⟩
  refine h6.imp ?_
  intro a b hab
  exact ⟨by rw [hsymm a b]; exact hab, hab⟩

/-- Concrete postimage used to instantiate the search: node 0 maps to
node 1, node 1 maps nowhere. -/
def postSample : Nat → List Nat :=
  fun n => if n = 0 then [1] else []

/-- Concrete safety verdicts: node 0 is definitely safe, all others are
definitely unsafe. -/
def safeSample : Nat → Kleenean :=
  fun n => if n = 0 then Kleenean.ktrue else Kleenean.kfalse

/-- Concrete node-equality verdict: definite equality of identifiers. -/
def eqSample : Nat → Nat → Kleenean :=
  fun a b => kOfBool (a == b)

theorem eqSample_symm : ∀ a b, eqSample a b = eqSample b a := by
  intro a b
  by_cases h : a = b
  · subst h
    rfl
  · have h1 : (a == b) = false := beq_eq_false_iff_ne.mpr h
    have h2 : (b == a) = false := beq_eq_false_iff_ne.mpr (Ne.symm h)
    simp [eqSample, h1, h2]

/-- Witness for claim C2 on the concrete two-node instance, whose search
returns the path [0, 1]. -/
theorem findCounterexample_path_valid_witness :
    (∃ c, ([0, 1] : List Nat).head? = some c ∧ c ∈ ([0] : List Nat)) ∧
    List.Chain' (fun a b => b ∈ postSample a) [0, 1] ∧
    (∃ last, ([0, 1] : List Nat).getLast? = some last ∧
      definitely (safeSample last) = false) ∧
    ([0, 1] : List Nat).Pairwise (fun a b =>
      definitely (eqSample a b) = false ∧ definitely (eqSample b a) = false) :=
  findCounterexample_path_valid postSample safeSample eqSample [0, 1] [0] [0, 1]
    (by decide) (by decide) eqSample_symm

/-! Claim C5: the search returns the empty path exactly when every node
reachable in the graph from the initial image is definitely safe.  The
soundness direction reuses the path-validity lemma; the completeness
direction is an induction over walks, using that the node-equality verdict
of the source compares boxes exactly, so it is reflexive and definitely
equal nodes agree on safety and on their postimage. -/

/-- Number of universe nodes not definitely equal to any node of the current
path; the DFS recursion depth is bounded by this quantity. -/
def unprunedCount (eqK : Nat → Nat → Kleenean) (univ path : List Nat) : Nat :=
  (univ.filter (fun x => path.all (fun p => !(definitely (eqK x p))))).length

theorem findCexF_empty_elim (post : Nat → List Nat) (safeK : Nat → Kleenean)
    (eqK : Nat → Nat → Kleenean) (fuel : Nat) (cands path : List Nat) (u : Nat)
    (hres : findCexF post safeK eqK (fuel + 1) cands path = [])
    (hu : u ∈ cands) :
    path.any (fun p => definitely (eqK u p)) = true ∨
    (definitely (safeK u) = true ∧
      findCexF post safeK eqK fuel (post u) (path ++ [u]) = []) := by
  induction cands with
  | nil => cases hu
  | cons c rest ihc =>
    rw [findCexF_cons] at hres
    split at hres
    · rename_i hpr
      rcases List.mem_cons.mp hu with rfl | hu2
      · exact Or.inl hpr
      · exact ihc hres hu2
    · rename_i hpr
      split at hres
      · simp at hres
      · rename_i hsafe
        have hsafeT : definitely (safeK c) = true := by
          revert hsafe
          cases definitely (safeK c) <;> simp
        simp only [] at hres
        split at hres
        · rename_i hemp
          rcases List.mem_cons.mp hu with rfl | hu2
          · exact Or.inr ⟨hsafeT, List.isEmpty_iff.mp hemp⟩
          · exact ihc hres hu2
        · rename_i hemp
          exact absurd (List.isEmpty_iff.mpr hres) hemp

theorem exists_last_satisfying {α : Type} (P : α → Bool) (l : List α)
    (h : ∃ x ∈ l, P x = true) :
    ∃ l1 x l2, l = l1 ++ x :: l2 ∧ P x = true ∧ ∀ y ∈ l2, P y = false := by
  induction l with
  | nil =>
    rcases h with ⟨x, hx, _⟩
    cases hx
  | cons a l ih =>
    by_cases h2 : ∃ x ∈ l, P x = true
    · rcases ih h2 with ⟨l1, x, l2, rfl, hx, hl2⟩
      exact ⟨a :: l1, x, l2, rfl, hx, hl2⟩
    · have ha : P a = true := by
        rcases h with ⟨x, hx, hpx⟩
        rcases List.mem_cons.mp hx with rfl | hx2
        · exact hpx
        · exact absurd ⟨x, hx2, hpx⟩ h2
      refine ⟨[], a, l, rfl, ha, ?_⟩
      intro y hy
      by_contra hc
      have hy2 : P y = true := by
        revert hc
        cases P y <;> simp
      exact h2 ⟨y, hy, hy2⟩

theorem unprunedCount_append_lt (eqK : Nat → Nat → Kleenean) (univ path : List Nat)
    (u : Nat) (hu : u ∈ univ) (hrefl : definitely (eqK u u) = true)
    (hunpr : path.all (fun p => !(definitely (eqK u p))) = true) :
    unprunedCount eqK univ (path ++ [u]) < unprunedCount eqK univ path := by
  have hsub : (univ.filter
      (fun x => (path ++ [u]).all (fun p => !(definitely (eqK x p))))).Sublist
      (univ.filter (fun x => path.all (fun p => !(definitely (eqK x p))))) := by
    apply List.monotone_filter_right
    intro a ha
    rw [List.all_append] at ha
    exact (Bool.and_eq_true _ _).mp ha |>.1
  have hu1 : u ∈ univ.filter (fun x => path.all fun p => !(definitely (eqK x p))) :=
    List.mem_filter.mpr ⟨hu, hunpr⟩
  have hu2 : ¬ u ∈ univ.filter
      (fun x => (path ++ [u]).all fun p => !(definitely (eqK x p))) := by
    intro hc
    have hall := (List.mem_filter.mp hc).2
    rw [List.all_append] at hall
    have h2 := ((Bool.and_eq_true _ _).mp hall).2
    simp [hrefl] at h2
  rcases Nat.lt_or_ge (unprunedCount eqK univ (path ++ [u]))
      (unprunedCount eqK univ path) with h | h
  · exact h
  · exfalso
    have heq := hsub.eq_of_length (Nat.le_antisymm hsub.length_le h)
    rw [heq] at hu2
    exact hu2 hu1

theorem getLast?_cons_append_cons {α : Type} (a b : α) (l l2 : List α) :
    ((a :: l) ++ b :: l2).getLast? = (b :: l2).getLast? := by
  rw [List.getLast?_append]
  rcases hg : (b :: l2).getLast? with _ | s
  · rw [List.getLast?_eq_getLast (b :: l2) (List.cons_ne_nil b l2)] at hg
    cases hg
  · rfl

theorem findCexF_complete_walk (post : Nat → List Nat) (safeK : Nat → Kleenean)
    (eqK : Nat → Nat → Kleenean) (univ : List Nat)
    (hrefl : ∀ x ∈ univ, definitely (eqK x x) = true)
    (hsafeCompat : ∀ a b, definitely (eqK a b) = true →
      definitely (safeK a) = definitely (safeK b))
    (hpostCompat : ∀ a b, definitely (eqK a b) = true → ∀ x, x ∈ post a ↔ x ∈ post b)
    (hclosed : ∀ x ∈ univ, ∀ y ∈ post x, y ∈ univ) :
    ∀ (n fuel : Nat) (cands path : List Nat) (u : Nat) (ws : List Nat),
    ws.length ≤ n →
    unprunedCount eqK univ path < fuel →
    findCexF post safeK eqK fuel cands path = [] →
    u ∈ cands → (∀ x ∈ cands, x ∈ univ) →
    List.Chain (fun a b => b ∈ post a) u ws →
    (∀ w ∈ u :: ws, ∀ p ∈ path, definitely (eqK w p) = false) →
    ∀ last, (u :: ws).getLast? = some last → definitely (safeK last) = true := by
  intro n
  induction n with
  | zero =>
    intro fuel cands path u ws hlen hfuel hres hu hcands hch havoid last hlast
    have hws : ws = [] := List.length_eq_zero.mp (Nat.le_zero.mp hlen)
    subst hws
    simp only [List.getLast?_singleton, Option.some.injEq] at hlast
    rw [← hlast]
    obtain ⟨fuel2, rfl⟩ : ∃ f2, fuel = f2 + 1 := ⟨fuel - 1, by omega⟩
    rcases findCexF_empty_elim post safeK eqK fuel2 cands path u hres hu with hpr | hok
    · rcases List.any_eq_true.mp hpr with ⟨p, hp, hep⟩
      rw [havoid u (List.mem_cons_self u []) p hp] at hep
      cases hep
    · exact hok.1
  | succ n ihn =>
    intro fuel cands path u ws hlen hfuel hres hu hcands hch havoid last hlast
    obtain ⟨fuel2, rfl⟩ : ∃ f2, fuel = f2 + 1 := ⟨fuel - 1, by omega⟩
    have huuniv : u ∈ univ := hcands u hu
    have hunpr : path.all (fun p => !(definitely (eqK u p))) = true := by
      rw [List.all_eq_true]
      intro p hp
      rw [havoid u (List.mem_cons_self u ws) p hp]
      rfl
    rcases findCexF_empty_elim post safeK eqK fuel2 cands path u hres hu with hpr | hok
    · rcases List.any_eq_true.mp hpr with ⟨p, hp, hep⟩
      rw [havoid u (List.mem_cons_self u ws) p hp] at hep
      cases hep
    · rcases hok with ⟨hsafeU, hinner⟩
      cases ws with
      | nil =>
        simp only [List.getLast?_singleton, Option.some.injEq] at hlast
        subst hlast
        exact hsafeU
      | cons w1 wt =>
        have hch1 := List.chain_cons.mp hch
        have hshrink := unprunedCount_append_lt eqK univ path u huuniv
          (hrefl u huuniv) hunpr
        have hfuel2 : unprunedCount eqK univ (path ++ [u]) < fuel2 := by omega
        have hcands2 : ∀ x ∈ post u, x ∈ univ := hclosed u huuniv
        by_cases hocc : ∃ y ∈ (w1 :: wt), definitely (eqK y u) = true
        · rcases exists_last_satisfying (fun y => definitely (eqK y u)) (w1 :: wt)
            hocc with ⟨l1, y0, l2, hdec, hy0, hl2⟩
          cases l2 with
          | nil =>
            have hlast2 : (u :: w1 :: wt).getLast? = some y0 := by
              rw [hdec]
              show ((u :: l1) ++ [y0]).getLast? = some y0
              exact List.getLast?_concat (u :: l1)
            rw [hlast2] at hlast
            cases hlast
            rw [hsafeCompat last u hy0]
            exact hsafeU
          | cons z l2t =>
            rw [hdec] at hch
            have hsplit := List.chain_split.mp hch
            have hzch := List.chain_cons.mp hsplit.2
            have hz_postu : z ∈ post u := (hpostCompat y0 u hy0 z).mp hzch.1
            have hlen2 : l2t.length ≤ n := by
              have : (w1 :: wt).length = l1.length + (y0 :: z :: l2t).length := by
                rw [hdec, List.length_append]
              simp only [List.length_cons] at this hlen
              omega
            have havoid2 : ∀ w ∈ z :: l2t, ∀ p ∈ path ++ [u],
                definitely (eqK w p) = false := by
              intro w hw p hp
              rcases List.mem_append.mp hp with hp2 | hp2
              · refine havoid w ?_ p hp2
                rw [hdec]
                refine List.mem_cons_of_mem u ?_
                rw [List.mem_append]
                exact Or.inr (List.mem_cons_of_mem y0 hw)
              · simp only [List.mem_singleton] at hp2
                subst hp2
                exact hl2 w hw
            have hlast2 : (z :: l2t).getLast? = some last := by
              rw [← hlast, hdec]
              show ((z :: l2t)).getLast? = ((u :: l1) ++ y0 :: z :: l2t).getLast?
              rw [getLast?_cons_append_cons u y0 l1 (z :: l2t),
                List.getLast?_cons_cons]
            exact ihn fuel2 (post u) (path ++ [u]) z l2t hlen2 hfuel2 hinner
              hz_postu hcands2 hzch.2 havoid2 last hlast2
        · have havoid2 : ∀ w ∈ w1 :: wt, ∀ p ∈ path ++ [u],
              definitely (eqK w p) = false := by
            intro w hw p hp
            rcases List.mem_append.mp hp with hp2 | hp2
            · exact havoid w (List.mem_cons_of_mem u hw) p hp2
            · simp only [List.mem_singleton] at hp2
              subst hp2
              by_contra hc
              have hwt : definitely (eqK w p) = true := by
                revert hc
                cases definitely (eqK w p) <;> simp
              exact hocc ⟨w, hw, hwt⟩
          have hlast2 : (w1 :: wt).getLast? = some last := by
            rw [← hlast, List.getLast?_cons_cons]
          exact ihn fuel2 (post u) (path ++ [u]) w1 wt (by
              simp only [List.length_cons] at hlen
              omega) hfuel2 hinner hch1.1 hcands2 hch1.2 havoid2 last hlast2

/-- Claim C5: under the properties the source's node equality enjoys on the
states the driver builds (exact box comparison is reflexive, and nodes with
definitely equal boxes agree on the stored safety verdict and on their graph
neighbours), findCounterexample returns the empty path iff every node
reachable in the reachability graph from the initial image is definitely
safe. -/
theorem findCounterexample_empty_iff_safe (post : Nat → List Nat)
    (safeK : Nat → Kleenean) (eqK : Nat → Nat → Kleenean) (univ image : List Nat)
    (hrefl : ∀ x ∈ univ, definitely (eqK x x) = true)
    (hsafeCompat : ∀ a b, definitely (eqK a b) = true →
      definitely (safeK a) = definitely (safeK b))
    (hpostCompat : ∀ a b, definitely (eqK a b) = true → ∀ x, x ∈ post a ↔ x ∈ post b)
    (hclosed : ∀ x ∈ univ, ∀ y ∈ post x, y ∈ univ)
    (himg : ∀ x ∈ image, x ∈ univ) :
    findCounterexample post safeK eqK univ image = [] ↔
      ∀ u ∈ image, ∀ v, Relation.ReflTransGen (fun a b => b ∈ post a) u v →
        definitely (safeK v) = true := by
  constructor
  · intro hres u hu v hreach
    rcases List.exists_chain_of_relationReflTransGen hreach with ⟨ws, hch, hlast⟩
    have hfuel : unprunedCount eqK univ [] < univ.length + 1 := by
      have := List.length_filter_le
        (fun x => ([] : List Nat).all (fun p => !(definitely (eqK x p)))) univ
      simp only [unprunedCount]
      omega
    refine findCexF_complete_walk post safeK eqK univ hrefl hsafeCompat hpostCompat
      hclosed ws.length (univ.length + 1) image [] u ws (Nat.le_refl _) hfuel hres
      hu himg hch (by simp) v ?_
    rw [List.getLast?_eq_getLast (u :: ws) (List.cons_ne_nil u ws), hlast]
  · intro hsafe
    by_contra hres
    rcases findCexF_sound post safeK eqK (univ.length + 1) image [] _ rfl hres
        List.chain'_nil List.Pairwise.nil (by simp) with
      ⟨r, h1, h2, ⟨c, h3, h4⟩, h5, h6, ⟨last, h7, h8⟩⟩
    simp only [List.nil_append] at h1
    rcases r with _ | ⟨r0, rt⟩
    · exact h2 rfl
    · simp only [List.head?_cons, Option.some.injEq] at h3
      rw [h1] at h5 h7
      have hreach : Relation.ReflTransGen (fun a b => b ∈ post a) r0 last := by
        refine List.relationReflTransGen_of_exists_chain rt h5 ?_
        rw [List.getLast?_eq_getLast (r0 :: rt) (List.cons_ne_nil r0 rt)] at h7
        injection h7 with h7e
      rw [h3] at hreach
      rw [hsafe c h4 last hreach] at h8
      cases h8

/-- Definite identifier equality implies identity of the nodes of the sample
instance. -/
theorem eqSample_def_eq (a b : Nat) (h : definitely (eqSample a b) = true) : a = b := by
  by_cases hc : a = b
  · exact hc
  · have h1 : (a == b) = false := beq_eq_false_iff_ne.mpr hc
    simp [eqSample, kOfBool, h1, definitely] at h

/-- Witness for claim C5 on the concrete two-node instance: the search does
not return the empty path, and correspondingly node 1, reachable from the
initial image, is not definitely safe. -/
theorem findCounterexample_empty_iff_safe_witness :
    (findCounterexample postSample safeSample eqSample [0, 1] [0] = [] ↔
      ∀ u ∈ ([0] : List Nat), ∀ v,
        Relation.ReflTransGen (fun a b => b ∈ postSample a) u v →
        definitely (safeSample v) = true) :=
  findCounterexample_empty_iff_safe postSample safeSample eqSample [0, 1] [0]
    (by decide)
    (by
      intro a b h
      rw [eqSample_def_eq a b h])
    (by
      intro a b h x
      rw [eqSample_def_eq a b h])
    (by decide)
    (by decide)

/-! The spuriousness check of cegar.hpp.  The point type, the dynamics
evaluation, the validated containment verdict of a point in a box and the
centre operation are parameters, mirroring the external Ariadne calls. -/

section Spurious

variable {P : Type}

/-- Point membership test of a graph node used on the initial image: a
concrete node tests possible containment of the point in its box.  Modelled
from the spec for the outside-sink: `relates` holds no box there, so the test
is false. -/
def pointInNode (containsK : Box → P → Kleenean)
    (nodeValue : Nat → Option InteriorTreeValue) (n : Nat) (pt : P) : Bool :=
  match nodeValue n with
  | some tv => possibly (containsK tv.box pt)
  | none => false

/-- Validated verdict tested for a path node during the forward walk: a
concrete node tests containment of the mapped point in its box; the
outside-sink tests non-containment in the root box. -/
def containsAtNode (containsK : Box → P → Kleenean)
    (nodeValue : Nat → Option InteriorTreeValue) (rootBox : Box)
    (n : Nat) (pt : P) : Kleenean :=
  match nodeValue n with
  | some tv => containsK tv.box pt
  | none => kNot (containsK rootBox pt)

/-- Forward walk of isSpurious: map the current point with the dynamics,
return True as soon as the mapped point is definitely not contained at the
next path node, and False when the end of the path is reached. -/
def spuriousWalk (dynamics : P → P) (containsK : Box → P → Kleenean)
    (nodeValue : Nat → Option InteriorTreeValue) (rootBox : Box) :
    P → List Nat → Kleenean
  | _, [] => Kleenean.kfalse
  | curr, n :: rest =>
    if definitely (kNot (containsAtNode containsK nodeValue rootBox n
        (dynamics curr))) then Kleenean.ktrue
    else spuriousWalk dynamics containsK nodeValue rootBox (dynamics curr) rest

/-- isSpurious of cegar.hpp on a counterexample given as first node plus rest
of the path.  When the first node is the outside-sink, the check modelled
from the spec asks whether the initial set fails to cover some image leaf
(`notCoversB`).  Otherwise the centre of the first node's box is taken; if no
initial-image node possibly contains it the result is True, else the centre
is walked forward along the path. -/
def isSpurious (dynamics : P → P) (containsK : Box → P → Kleenean)
    (centre : Box → P) (nodeValue : Nat → Option InteriorTreeValue)
    (rootBox : Box) (notCoversB : Nat → Bool)
    (first : Nat) (rest : List Nat) (image : List Nat) : Kleenean :=
  match nodeValue first with
  | none => if image.any notCoversB then Kleenean.kfalse else Kleenean.ktrue
  | some tv =>
    if image.all (fun n => !(pointInNode containsK nodeValue n (centre tv.box))) then
      Kleenean.ktrue
    else spuriousWalk dynamics containsK nodeValue rootBox (centre tv.box) rest

theorem spuriousWalk_two_valued (dynamics : P → P) (containsK : Box → P → Kleenean)
    (nodeValue : Nat → Option InteriorTreeValue) (rootBox : Box)
    (l : List Nat) (pt : P) :
    spuriousWalk dynamics containsK nodeValue rootBox pt l = Kleenean.ktrue ∨
    spuriousWalk dynamics containsK nodeValue rootBox pt l = Kleenean.kfalse := by
  induction l generalizing pt with
  | nil => exact Or.inr rfl
  | cons n rest ih =>
    simp only [spuriousWalk]
    split
    · exact Or.inl rfl
    · exact ih (dynamics pt)

theorem spuriousWalk_false_iff (dynamics : P → P) (containsK : Box → P → Kleenean)
    (nodeValue : Nat → Option InteriorTreeValue) (rootBox : Box)
    (l : List Nat) (pt : P) :
    spuriousWalk dynamics containsK nodeValue rootBox pt l = Kleenean.kfalse ↔
      ∀ i, (h : i < l.length) →
        definitely (kNot (containsAtNode containsK nodeValue rootBox
          (l.get ⟨i, h⟩) (dynamics^[i + 1] pt))) = false := by
  induction l generalizing pt with
  | nil => simp [spuriousWalk]
  | cons n rest ih =>
    simp only [spuriousWalk]
    split
    · rename_i hdiv
      constructor
      · intro hc
        cases hc
      · intro hall
        have h0 : definitely (kNot (containsAtNode containsK nodeValue rootBox n
            (dynamics pt))) = false := hall 0 (by simp)
        simp [h0] at hdiv
    · rename_i hdiv
      have hdivF : definitely (kNot (containsAtNode containsK nodeValue rootBox n
          (dynamics pt))) = false := by
        revert hdiv
        cases definitely (kNot (containsAtNode containsK nodeValue rootBox n
          (dynamics pt))) <;> simp
      rw [ih (dynamics pt)]
      constructor
      · intro hall i hi
        cases i with
        | zero => exact hdivF
        | succ j =>
          exact hall j (by
            simp only [List.length_cons] at hi
            omega)
      · intro hall j hj
        exact hall (j + 1) (by
          simp only [List.length_cons]
          omega)

/-! Claim C3. -/

/-- Claim C3: isSpurious on a path whose first node is a concrete leaf takes
the centre of that node's box; it returns True when no initial-image node
possibly contains the centre; otherwise it performs the forward walk from the
centre, and the walk returns False exactly when every mapped point along the
path avoids the definite non-containment verdict at its node (containment in
the concrete node's box, respectively non-containment in the root box for the
outside-sink), returning True at the first violation. -/
theorem isSpurious_concrete_first (dynamics : P → P)
    (containsK : Box → P → Kleenean) (centre : Box → P)
    (nodeValue : Nat → Option InteriorTreeValue) (rootBox : Box)
    (notCoversB : Nat → Bool) (first : Nat) (rest image : List Nat)
    (tv : InteriorTreeValue) (hfirst : nodeValue first = some tv) :
    ((∀ n ∈ image, pointInNode containsK nodeValue n (centre tv.box) = false) →
      isSpurious dynamics containsK centre nodeValue rootBox notCoversB
        first rest image = Kleenean.ktrue) ∧
    ((∃ n ∈ image, pointInNode containsK nodeValue n (centre tv.box) = true) →
      isSpurious dynamics containsK centre nodeValue rootBox notCoversB
        first rest image =
        spuriousWalk dynamics containsK nodeValue rootBox (centre tv.box) rest) ∧
    (spuriousWalk dynamics containsK nodeValue rootBox (centre tv.box) rest =
        Kleenean.kfalse ↔
      ∀ i, (h : i < rest.length) →
        definitely (kNot (containsAtNode containsK nodeValue rootBox
          (rest.get ⟨i, h⟩) (dynamics^[i + 1] (centre tv.box)))) = false) ∧
    (spuriousWalk dynamics containsK nodeValue rootBox (centre tv.box) rest =
        Kleenean.ktrue ∨
      spuriousWalk dynamics containsK nodeValue rootBox (centre tv.box) rest =
        Kleenean.kfalse) := by
  refine ⟨?_, ?_,
    spuriousWalk_false_iff dynamics containsK nodeValue rootBox rest (centre tv.box),
    spuriousWalk_two_valued dynamics containsK nodeValue rootBox rest (centre tv.box)⟩
  · intro hnone
    simp only [isSpurious, hfirst]
    rw [if_pos]
    rw [List.all_eq_true]
    intro n hn
    rw [hnone n hn]
    rfl
  · intro hsome
    simp only [isSpurious, hfirst]
    rw [if_neg]
    intro hall
    rw [List.all_eq_true] at hall
    rcases hsome with ⟨n, hn, hpt⟩
    have := hall n hn
    rw [hpt] at this
    cases this

end Spurious

/-- Concrete validated containment of an integer point in a one-dimensional
box. -/
def containsZ : Box → Int → Kleenean
  | [(lo, hi)], pt => kOfBool (decide (lo ≤ pt) && decide (pt ≤ hi))
  | _, _ => Kleenean.kfalse

/-- Concrete centre of a one-dimensional box. -/
def centreZ : Box → Int
  | [(lo, hi)] => (lo + hi) / 2
  | _ => 0

/-- Concrete node values for the spuriousness witness: node 0 is the first
path node with box [0, 2], node 1 has box [0, 4], node 9 is the sink. -/
def nvZ : Nat → Option InteriorTreeValue :=
  fun n =>
    if n = 9 then none
    else if n = 0 then some ⟨0, [(0, 2)], Kleenean.ktrue⟩
    else some ⟨n, [(0, 4)], Kleenean.kfalse⟩

/-- Witness for claim C3: on the concrete instance the centre of the first
node lies in an image node, so isSpurious equals the forward walk of the
centre along the rest of the path. -/
theorem isSpurious_concrete_first_witness :
    isSpurious (fun pt : Int => pt + 1) containsZ centreZ nvZ [(0, 4)]
      (fun _ => false) 0 [1] [0] =
    spuriousWalk (fun pt : Int => pt + 1) containsZ nvZ [(0, 4)] (centreZ [(0, 2)]) [1] :=
  ((isSpurious_concrete_first (fun pt : Int => pt + 1) containsZ centreZ nvZ
    [(0, 4)] (fun _ => false) 0 [1] [0] ⟨0, [(0, 2)], Kleenean.ktrue⟩
    (by decide)).2.1) ⟨0, by decide, by decide⟩

/-! The CEGAR driver loop of cegar.hpp.  The driver is a template over the
refinement-tree state; its subroutines - node count, counterexample search,
spuriousness check, per-node safety, locator, node-value test and the
refinement step together with the initial-image maintenance - are collected
in an operations record, mirroring the template parameters and the methods
called on the state.  The loop of the source runs until the node budget is
reached; `fuel` bounds the number of iterations of the embedding. -/

/-- Operations of the refinement-tree state the driver loop is instantiated
with. -/
structure DriverOps (σ : Type) where
  size : σ → Nat
  findCex : σ → List Nat
  spurious : σ → List Nat → Kleenean
  isSafeN : σ → Nat → Kleenean
  locator : List Nat → List Nat
  hasValue : σ → Nat → Bool
  refineAt : σ → Nat → σ

/-- Refinement pass of one driver iteration: for each located target that
still has a node value, refine it (the update of the initial image around the
refined node is part of the state update). -/
def cegarBody {σ : Type} (ops : DriverOps σ) (s : σ) (cex : List Nat) : σ :=
  (ops.locator cex).foldl
    (fun st t => if ops.hasValue st t then ops.refineAt st t else st) s

/-- Genuine-counterexample test of the driver: the counterexample is
definitely not spurious and its last node is definitely not safe. -/
def cegarGenuine {σ : Type} (ops : DriverOps σ) (s : σ) (cex : List Nat) : Bool :=
  definitely (kNot (ops.spurious s cex)) &&
    definitely (kNot (ops.isSafeN s (cex.getLastD 0)))

/-- cegar of cegar.hpp: while the node count is below the budget, search for
a counterexample; report safe on the empty path, report unsafe with the path
on a genuine counterexample, otherwise refine and continue; report
indeterminate once the budget is reached. -/
def cegarLoop {σ : Type} (ops : DriverOps σ) (maxNodes : Nat) :
    Nat → σ → Kleenean × List Nat
  | 0, _ => (Kleenean.indeterminate, [])
  | fuel + 1, s =>
    if maxNodes ≤ ops.size s then (Kleenean.indeterminate, [])
    else
      match ops.findCex s with
      | [] => (Kleenean.ktrue, [])
      | c :: cs =>
        if cegarGenuine ops s (c :: cs) then (Kleenean.kfalse, c :: cs)
        else cegarLoop ops maxNodes fuel (cegarBody ops s (c :: cs))

/-- One driver iteration as a partial step: none when the iteration returns
(budget reached, proved safe, or genuine counterexample), and the refined
state otherwise. -/
def cegarAdvance {σ : Type} (ops : DriverOps σ) (maxNodes : Nat) (s : σ) :
    Option σ :=
  if maxNodes ≤ ops.size s then none
  else
    match ops.findCex s with
    | [] => none
    | c :: cs =>
      if cegarGenuine ops s (c :: cs) then none
      else some (cegarBody ops s (c :: cs))

/-- Iterated driver steps. -/
def iterAdvance {σ : Type} (ops : DriverOps σ) (maxNodes : Nat) :
    Nat → σ → Option σ
  | 0, s => some s
  | k + 1, s => (cegarAdvance ops maxNodes s).bind (iterAdvance ops maxNodes k)

/-! Claim C1. -/

/-- Claim C1: the driver loop returns (Indeterminate, empty) whenever the
node budget is exhausted, returns (True, empty) when the search yields the
empty path below budget, and returns (False, cex) exactly when some number of
non-returning iterations leads to a state below budget whose counterexample
is the non-empty path cex, is definitely not spurious, and has a definitely
unsafe last node. -/
theorem cegar_driver_characterization (σ : Type) (ops : DriverOps σ)
    (maxNodes : Nat) :
    (∀ fuel s, maxNodes ≤ ops.size s →
      cegarLoop ops maxNodes fuel s = (Kleenean.indeterminate, [])) ∧
    (∀ fuel s, ops.size s < maxNodes → ops.findCex s = [] →
      cegarLoop ops maxNodes (fuel + 1) s = (Kleenean.ktrue, [])) ∧
    (∀ fuel s p, cegarLoop ops maxNodes fuel s = (Kleenean.kfalse, p) ↔
      ∃ k, k < fuel ∧ ∃ s2, iterAdvance ops maxNodes k s = some s2 ∧
        ops.size s2 < maxNodes ∧ ops.findCex s2 = p ∧ p ≠ [] ∧
        cegarGenuine ops s2 p = true) := by
  refine ⟨?_, ?_, ?_⟩
  · intro fuel s hsz
    cases fuel with
    | zero => rfl
    | succ fuel => simp [cegarLoop, hsz]
  · intro fuel s hsz hcex
    simp [cegarLoop, Nat.not_le.mpr hsz, hcex]
  · intro fuel
    induction fuel with
    | zero =>
      intro s p
      constructor
      · intro hc
        simp [cegarLoop, Prod.mk.injEq] at hc
      · rintro ⟨k, hk, _⟩
        omega
    | succ fuel ih =>
      intro s p
      by_cases hsz : maxNodes ≤ ops.size s
      · simp only [cegarLoop, if_pos hsz]
        constructor
        · intro hc
          simp [Prod.mk.injEq] at hc
        · rintro ⟨k, hk, s2, hit, hsz2, _⟩
          cases k with
          | zero =>
            simp only [iterAdvance, Option.some.injEq] at hit
            subst hit
            omega
          | succ j =>
            simp only [iterAdvance, cegarAdvance, if_pos hsz,
              Option.bind] at hit
            cases hit
      · rcases hcex : ops.findCex s with _ | ⟨c, cs⟩
        · simp only [cegarLoop, if_neg hsz, hcex]
          constructor
          · intro hc
            simp [Prod.mk.injEq] at hc
          · rintro ⟨k, hk, s2, hit, hsz2, hcex2, hne, hgen⟩
            cases k with
            | zero =>
              simp only [iterAdvance, Option.some.injEq] at hit
              subst hit
              rw [hcex] at hcex2
              exact absurd hcex2.symm hne
            | succ j =>
              simp only [iterAdvance, cegarAdvance, if_neg hsz, hcex,
                Option.bind] at hit
              cases hit
        · by_cases hgen : cegarGenuine ops s (c :: cs) = true
          · simp only [cegarLoop, if_neg hsz, hcex, if_pos hgen]
            constructor
            · intro hc
              rw [Prod.mk.injEq] at hc
              refine ⟨0, by omega, s, rfl, by omega, by rw [hcex, hc.2], by
                rw [← hc.2]
                simp, by rw [← hc.2]; exact hgen⟩
            · rintro ⟨k, hk, s2, hit, hsz2, hcex2, hne, hgen2⟩
              cases k with
              | zero =>
                simp only [iterAdvance, Option.some.injEq] at hit
                subst hit
                rw [hcex] at hcex2
                rw [Prod.mk.injEq]
                exact ⟨rfl, hcex2⟩
              | succ j =>
                simp only [iterAdvance, cegarAdvance, if_neg hsz, hcex,
                  if_pos hgen, Option.bind] at hit
                cases hit
          · have hgenF : cegarGenuine ops s (c :: cs) = false := by
              revert hgen
              cases cegarGenuine ops s (c :: cs) <;> simp
            simp only [cegarLoop, if_neg hsz, hcex, hgenF, if_false,
              Bool.false_eq_true]
            rw [ih (cegarBody ops s (c :: cs)) p]
            constructor
            · rintro ⟨k, hk, s2, hit, hrest⟩
              refine ⟨k + 1, by omega, s2, ?_, hrest⟩
              simp only [iterAdvance, cegarAdvance, if_neg hsz, hcex, hgenF,
                if_false, Option.bind, Bool.false_eq_true]
              exact hit
            · rintro ⟨k, hk, s2, hit, hrest⟩
              cases k with
              | zero =>
                simp only [iterAdvance, Option.some.injEq] at hit
                subst hit
                rw [hcex] at hrest
                rw [← hrest.2.1] at hrest
                rw [hrest.2.2.2] at hgenF
                cases hgenF
              | succ j =>
                refine ⟨j, by omega, s2, ?_, hrest⟩
                simp only [iterAdvance, cegarAdvance, if_neg hsz, hcex, hgenF,
                  if_false, Option.bind, Bool.false_eq_true] at hit
                exact hit

/-- Concrete driver operations over a counter state: node count is the state
itself, state 0 yields the counterexample [7] which is genuine, refinement
increments the counter. -/
def opsW : DriverOps Nat where
  size := fun s => s
  findCex := fun s => if s = 0 then [7] else []
  spurious := fun _ _ => Kleenean.kfalse
  isSafeN := fun _ _ => Kleenean.kfalse
  locator := fun l => l
  hasValue := fun _ _ => true
  refineAt := fun st _ => st + 1

/-- Witness for claim C1 on the concrete driver instance: budget exhaustion
at state 9, proved safe at state 1, and the genuine-counterexample iff at
state 0. -/
theorem cegar_driver_characterization_witness :
    cegarLoop opsW 5 3 9 = (Kleenean.indeterminate, []) ∧
    cegarLoop opsW 5 3 1 = (Kleenean.ktrue, []) ∧
    (cegarLoop opsW 5 1 0 = (Kleenean.kfalse, [7]) ↔
      ∃ k, k < 1 ∧ ∃ s2, iterAdvance opsW 5 k 0 = some s2 ∧
        opsW.size s2 < 5 ∧ opsW.findCex s2 = [7] ∧ ([7] : List Nat) ≠ [] ∧
        cegarGenuine opsW s2 [7] = true) :=
  ⟨(cegar_driver_characterization Nat opsW 5).1 3 9 (by decide),
   (cegar_driver_characterization Nat opsW 5).2.1 2 1 (by decide) (by decide),
   (cegar_driver_characterization Nat opsW 5).2.2 1 0 [7]⟩

end Cegar
